import Mathlib

/-!
# Verification of the code-scribe directory-to-markdown converter

Shallow embedding of `src/main.py` (the only source file of the
repository).  Strings are modelled as `List Char` (Python strings are
sequences of Unicode code points).  The Unicode classification and case
tables used by Python's `re` module (`\w`, `\s`) and `str.lower` /
`str.strip` are modelled exactly for all code points below `0x100`
(Latin-1) together with the code points reachable from Latin-1 under
lowercasing (`0x3BC`, the lowercase of the micro sign `0xB5`) and the
code points `0x130`/`0x307` (dotted capital I and its lowercase
expansion `i` + combining dot above, the classic non-trivial case
mapping).  All remaining code points at or above `0x100` are
approximated as non-word, non-space and case-fixed; every theorem whose
truth depends on character classification is stated within the exactly
modelled zone.
-/

/-- A Python string: a sequence of Unicode code points. -/
abbrev Str := List Char

/-! ## Character tables (Python `re` and `str` semantics) -/

/-- Python's `\s` (same set as `str.isspace`, used by `re` and by
`str.strip`): tab, LF, VT, FF, CR, FS, GS, RS, US, space, NEL (`0x85`)
and NBSP (`0xA0`).  Exact below `0x100`; code points `≥ 0x100` are
approximated as non-space. -/
def pyIsSpace (c : Char) : Bool :=
  decide (c.toNat = 9 ∨ c.toNat = 10 ∨ c.toNat = 11 ∨ c.toNat = 12 ∨ c.toNat = 13 ∨
    (28 ≤ c.toNat ∧ c.toNat ≤ 32) ∨ c.toNat = 0x85 ∨ c.toNat = 0xA0)

/-- Python's `\w`: alphanumeric (Unicode alphabetic, decimal, digit or
numeric) or underscore.  Exact below `0x100` (ASCII alphanumerics, `_`,
`ª µ º ² ³ ¹ ¼ ½ ¾` and the Latin-1 letters `0xC0`–`0xFF` except `×`
and `÷`), plus `0x130` (İ) and `0x3BC` (μ); other code points `≥ 0x100`
are approximated as non-word. -/
def pyIsWordChar (c : Char) : Bool :=
  decide ((48 ≤ c.toNat ∧ c.toNat ≤ 57) ∨ (65 ≤ c.toNat ∧ c.toNat ≤ 90) ∨ c.toNat = 95 ∨
    (97 ≤ c.toNat ∧ c.toNat ≤ 122) ∨ c.toNat = 0xAA ∨ c.toNat = 0xB2 ∨ c.toNat = 0xB3 ∨
    c.toNat = 0xB5 ∨ c.toNat = 0xB9 ∨ c.toNat = 0xBA ∨ (0xBC ≤ c.toNat ∧ c.toNat ≤ 0xBE) ∨
    (0xC0 ≤ c.toNat ∧ c.toNat ≤ 0xFF ∧ c.toNat ≠ 0xD7 ∧ c.toNat ≠ 0xF7) ∨
    c.toNat = 0x130 ∨ c.toNat = 0x3BC)

/-- Python `str.lower` on a single code point, as a (possibly
multi-character) string: `A`–`Z` and the Latin-1 capitals `0xC0`–`0xDE`
(except `×`) shift by 32, the micro sign `0xB5` lowers to Greek μ
(`0x3BC`), and İ (`0x130`) lowers to the two code points `i` +
combining dot above (`0x307`).  Exact below `0x100` and at `0x130`;
other code points `≥ 0x100` are approximated as case-fixed. -/
def pyLowerExp (c : Char) : List Char :=
  if 65 ≤ c.toNat ∧ c.toNat ≤ 90 then [Char.ofNat (c.toNat + 32)]
  else if c.toNat = 0xB5 then [Char.ofNat 0x3BC]
  else if 0xC0 ≤ c.toNat ∧ c.toNat ≤ 0xDE ∧ c.toNat ≠ 0xD7 then [Char.ofNat (c.toNat + 32)]
  else if c.toNat = 0x130 then [Char.ofNat 0x69, Char.ofNat 0x307]
  else [c]

/-- Python `str.lower` on a string. -/
def pyLower (s : Str) : Str := s.flatMap pyLowerExp

/-! ## `sanitise_filename` (src/main.py lines 41–52)

```
filename = re.sub(r'[^\w\s-]', '_', filename).strip().lower()
filename = re.sub(r'[-\s]+', '_', filename)
```
-/

/-- `re.sub(r'[^\w\s-]', '_', s)`: every character that is not a word
character, whitespace or hyphen becomes `_` (the regex matches single
characters, so this is a per-character map). -/
def subNonWord (s : Str) : Str :=
  s.map (fun c => if pyIsWordChar c || pyIsSpace c || c = '-' then c else '_')

/-- Python `str.strip()`: remove leading and trailing whitespace. -/
def pyStrip (s : Str) : Str :=
  ((s.dropWhile pyIsSpace).reverse.dropWhile pyIsSpace).reverse

/-- A character matched by the class `[-\s]`. -/
def isDashOrSpace (c : Char) : Bool := pyIsSpace c || c = '-'

/-- `re.sub(r'[-\s]+', '_', s)`: each maximal run of hyphens/whitespace
becomes a single `_`.  The flag records whether the previous character
belonged to a run that has already emitted its `_`. -/
def collapseRuns : Bool → Str → Str
  | _, [] => []
  | inRun, c :: cs =>
    if isDashOrSpace c then
      if inRun then collapseRuns true cs else '_' :: collapseRuns true cs
    else c :: collapseRuns false cs

/-- `sanitise_filename` from src/main.py: substitute non-word
characters, strip, lowercase, then collapse hyphen/whitespace runs. -/
def sanitise_filename (s : Str) : Str :=
  collapseRuns false (pyLower (pyStrip (subNonWord s)))

/-- The first (headmost) character produced by lowering `c`. -/
def lower1 (c : Char) : Char := (pyLowerExp c).headD c

/-- A character in the set `[a-z0-9_]`. -/
def isSafeChar (c : Char) : Bool :=
  decide (('a' ≤ c ∧ c ≤ 'z') ∨ ('0' ≤ c ∧ c ≤ '9') ∨ c = '_')

/-- A string all of whose characters are fixed by Python `str.lower`
(i.e. the string is already lowercase). -/
def isLowerStr (s : Str) : Bool := s.all fun c => pyLowerExp c == [c]

/-! ## `os.path.splitext` and the filesystem model -/

/-- The extension part of `os.path.splitext` applied to a base name:
everything from the last `.` on, except that leading dots of the name
never start an extension (`.env` has extension `""`, `.env.local` has
extension `.local`, `a.b.c` has extension `.c`). -/
def extOf (s : Str) : Str :=
  let rest := s.dropWhile (· = '.')
  if rest.contains '.' then '.' :: (rest.reverse.takeWhile (· ≠ '.')).reverse else []

/-- Does the name start with a dot (Python `str.startswith('.')`)? -/
def startsDot : Str → Bool
  | c :: _ => c = '.'
  | [] => false

/-- `should_exclude_directory` (src/main.py lines 199–218): the entry's
base name equals one of the default exclusions `.terraform`,
`node_modules`, `.git` or one of the user-supplied names. -/
def should_exclude_directory (name : Str) (exclude_dirs : List Str) : Bool :=
  (([".terraform".data, "node_modules".data, ".git".data] : List Str)
    ++ exclude_dirs).contains name

/-- A filesystem node: a file carries its base name and its decoded
text contents (`none` models a file whose bytes raise
`UnicodeDecodeError` when read as UTF-8 text); a directory carries its
base name and its entries in directory-listing (`os.scandir`/`os.walk`)
order. -/
inductive FS where
  | file (name : Str) (contents : Option Str)
  | dir (name : Str) (children : List FS)

/-- The base name of a node (`DirEntry.name` / `Path.name`). -/
def nameOf : FS → Str
  | .file n _ => n
  | .dir n _ => n

/-- Is the node a directory (`DirEntry.is_dir` / `os.path.isdir`)? -/
def isDirB : FS → Bool
  | .file _ _ => false
  | .dir _ _ => true

/-- The children of a directory node. -/
def childrenOf : FS → List FS
  | .file _ _ => []
  | .dir _ cs => cs

/-! ## `discover_extensions` (src/main.py lines 138–163) -/

/-- The key sequence recorded by `_scan_directory`, in encounter order:
for each non-excluded entry, recurse into directories; for a file whose
name starts with `.` record the full name, otherwise record the
lowercased `splitext` extension.  (The exclusion check is applied to
every entry, files included.) -/
def scanKeys (ex : List Str) : List FS → List Str
  | [] => []
  | .dir n cs :: rest =>
    (if should_exclude_directory n ex then [] else scanKeys ex cs) ++ scanKeys ex rest
  | .file n _ :: rest =>
    (if should_exclude_directory n ex then []
     else if startsDot n then [n] else [pyLower (extOf n)]) ++ scanKeys ex rest

/-- `extensions[k] = extensions.get(k, 0) + 1` on an insertion-ordered
dict represented as an association list. -/
def bump : List (Str × Nat) → Str → List (Str × Nat)
  | [], k => [(k, 1)]
  | (k', c) :: rest, k =>
    if k = k' then (k', c + 1) :: rest else (k', c) :: bump rest k

/-- `discover_extensions`: scan the whole tree below the input
directory (pruning excluded names) and count each key, returning the
`(key, count)` pairs in first-encounter order. -/
def discover_extensions (root : FS) (ex : List Str) : List (Str × Nat) :=
  (scanKeys ex (childrenOf root)).foldl bump []

/-! ## `generate_markdown_from_file` (src/main.py lines 55–79) -/

/-- The markdown fragment built at lines 67–72 (and again, textually
identically, at lines 262–267 in the single-file branch): a header with
the relative path, a contents label, then either a fenced code block
tagged with `language` or the raw contents (when `language` is empty),
ending with two newlines. -/
def render (rel_path : Str) (file_contents : Str) (language : Str) : Str :=
  let m1 := "# File Name: ".data ++ rel_path ++ "\n".data
  let m2 := m1 ++ "# File Contents:\n".data
  if language = [] then m2 ++ (file_contents ++ "\n\n".data)
  else m2 ++ ("```".data ++ language ++ "\n".data ++ file_contents ++ "\n```\n\n".data)

/-- Result of `open(input, 'r', encoding='utf-8').read()`. -/
inductive ReadResult where
  | ok (contents : Str)
  | unicodeError
  | otherError

/-- A file's modelled contents as a read result. -/
def readResultOf : Option Str → ReadResult
  | some c => .ok c
  | none => .unicodeError

/-- A filesystem side effect of the program. -/
inductive Effect where
  | readFile (path : Str)
  | writeFile (path : Str) (content : Str)

/-- `generate_markdown_from_file` as its trace of filesystem effects
plus a flag telling whether an exception escapes to the caller.  The
input file is read in full first (lines 65–66); only on success is the
markdown string built (67–72) and the output file opened for writing
and written (73–74); `UnicodeDecodeError` and every other `Exception`
raised inside the `try` are caught and logged (76–79), so the flag is
always `false`. -/
def generate_markdown_from_file (r : ReadResult) (input_filepath output_filepath : Str)
    (rel_path language : Str) : List Effect × Bool :=
  match r with
  | .ok c =>
    ([.readFile input_filepath,
      .writeFile output_filepath (render rel_path c language)], false)
  | .unicodeError => ([.readFile input_filepath], false)
  | .otherError => ([.readFile input_filepath], false)

/-- The write effects of a trace. -/
def writesOf (effs : List Effect) : List (Str × Str) :=
  effs.filterMap fun e =>
    match e with
    | .writeFile p c => some (p, c)
    | .readFile _ => none

/-! ## `os.walk` and `generate_markdown_from_directory`
(src/main.py lines 220–282) -/

/-- One `(root, dirs, files)` triple yielded by `os.walk`, reduced to
what the pipeline uses: the base name of `root` (`Path(root).name`),
the components of `root` relative to the input directory (`[]` for the
input directory itself), and the `(name, contents)` of the plain files
directly in `root`, in listing order. -/
structure WalkEntry where
  dirName : Str
  rel : List Str
  files : List (Str × Option Str)

/-- The plain files among a directory's entries, in listing order. -/
def filesOf (cs : List FS) : List (Str × Option Str) :=
  cs.filterMap fun e =>
    match e with
    | .file n c => some (n, c)
    | .dir _ _ => none

/-- The walk entries contributed by the subdirectories in `cs`, whose
parent directory lies at `rel` below the input root: `os.walk` is
top-down, so each directory's own triple precedes its subtree, and
siblings appear in listing order.  No pruning happens here: the code
never edits the `dirs` list, so `os.walk` descends into every
directory, excluded or not. -/
def walkChildren (rel : List Str) : List FS → List WalkEntry
  | [] => []
  | .file _ _ :: rest => walkChildren rel rest
  | .dir m ds :: rest =>
    (⟨m, rel ++ [m], filesOf ds⟩ :: walkChildren (rel ++ [m]) ds) ++ walkChildren rel rest

/-- `os.walk(input_dir)`: the input directory's triple followed by the
triples of all descendant directories. -/
def osWalk : FS → List WalkEntry
  | .file _ _ => []
  | .dir n cs => ⟨n, [], filesOf cs⟩ :: walkChildren [] cs

/-- `os.path.join` / `os.path.relpath` on components (POSIX separator). -/
def joinSep (sep : Str) : List Str → Str
  | [] => []
  | [x] => x
  | x :: y :: rest => x ++ sep ++ joinSep sep (y :: rest)

/-- The loop body of the content pass for one file (lines 241–273),
single-file mode: skip the literal names `.DS_Store` and `.env`;
compute the lowercased extension; when the extension is selected, or is
empty while the full name is selected, read the file and accumulate the
rendered fragment (a file that fails to decode is skipped). -/
def processFile (sel : List Str) (rel : List Str) (fname : Str) (contents : Option Str) :
    List Str :=
  if fname = ".DS_Store".data ∨ fname = ".env".data then []
  else
    let ext := pyLower (extOf fname)
    if sel.contains ext || (ext.isEmpty && sel.contains fname) then
      match contents with
      | some c => [render (joinSep "/".data (rel ++ [fname])) c (ext.drop 1)]
      | none => []
    else []

/-- The fragments accumulated in `all_markdown_content` by
`generate_markdown_from_directory` in single-file mode, in walk order.
A walked directory is skipped (`continue`) when its *own base name* is
excluded; its files are otherwise processed by `processFile`. -/
def singleFileFragments (t : FS) (sel ex : List Str) : List Str :=
  (osWalk t).flatMap fun e =>
    if should_exclude_directory e.dirName ex then []
    else e.files.flatMap fun fc => processFile sel e.rel fc.1 fc.2

/-- The contents written to `outputDir/all_files.txt` (lines 276–280):
the accumulated fragments joined with `"---\n"`. -/
def all_files_content (t : FS) (sel ex : List Str) : Str :=
  joinSep "---\n".data (singleFileFragments t sel ex)

/-- The loop body of the content pass for one file, per-file mode: the
same guards, then a call to `generate_markdown_from_file` with input
path `rel_path`, output path `relDir/<sanitised rel_path>.txt` (both
relative to their base directories) and language tag `ext[1:]`. -/
def processFileEffects (sel : List Str) (rel : List Str) (fname : Str)
    (contents : Option Str) : List Effect :=
  if fname = ".DS_Store".data ∨ fname = ".env".data then []
  else
    let ext := pyLower (extOf fname)
    if sel.contains ext || (ext.isEmpty && sel.contains fname) then
      let rel_path := joinSep "/".data (rel ++ [fname])
      (generate_markdown_from_file (readResultOf contents) rel_path
        (joinSep "/".data (rel ++ [sanitise_filename rel_path ++ ".txt".data]))
        rel_path (ext.drop 1)).1
    else []

/-- The effect trace of `generate_markdown_from_directory` in per-file
mode (output paths relative to the output directory). -/
def perFileEffects (t : FS) (sel ex : List Str) : List Effect :=
  (osWalk t).flatMap fun e =>
    if should_exclude_directory e.dirName ex then []
    else e.files.flatMap fun fc => processFileEffects sel e.rel fc.1 fc.2

/-- The file-inclusion predicate of §4.6 step 3 of the spec: the name
is neither `.DS_Store` nor `.env`, and either the lowercased extension
is selected, or the extension is empty and the full name is selected. -/
def includePredB (sel : List Str) (fname : Str) : Bool :=
  !(fname == ".DS_Store".data) && !(fname == ".env".data) &&
    (sel.contains (pyLower (extOf fname)) || ((extOf fname).isEmpty && sel.contains fname))

/-! ## `generate_tree_output` (src/main.py lines 82–136) -/

/-- Python string `<` (code-point lexicographic), as `≤`. -/
def nameLe : Str → Str → Bool
  | [], _ => true
  | _ :: _, [] => false
  | a :: as, b :: bs => if a = b then nameLe as bs else decide (a < b)

/-- The comparator key of line 102, `(not e.is_dir(), e.name)`, as a
`≤` relation: directories before files, then by name. -/
def entryLe (a b : FS) : Bool :=
  if isDirB a = isDirB b then nameLe (nameOf a) (nameOf b) else isDirB a

/-- `sorted(os.scandir(path), key=lambda e: (not e.is_dir(), e.name))`. -/
def sortChildren (l : List FS) : List FS :=
  List.insertionSort (fun a b => entryLe a b = true) l

/-- One collected row of `get_tree_structure`: the entry's base name,
the full prefix (`indent + connector`) and whether it is a directory. -/
structure TreeEntry where
  nm : Str
  pre : Str
  isd : Bool
deriving DecidableEq

/-- `get_tree_structure` (lines 90–117) on a sorted sibling list: walk
the entries with their index; an excluded entry is skipped with
`continue`, but `is_last` still compares the index against the length
of the *full* sorted list, so it holds exactly for the final element of
that list; directories recurse on their sorted children with the
extended indent. -/
def treeList (ex : List Str) (ind : Str) : List FS → List TreeEntry
  | [] => []
  | e :: rest =>
    if should_exclude_directory (nameOf e) ex then treeList ex ind rest
    else
      match e with
      | .file n _ =>
        ⟨n, ind ++ (if rest.isEmpty then "└── ".data else "├── ".data), false⟩ ::
          treeList ex ind rest
      | .dir n cs =>
        ⟨n, ind ++ (if rest.isEmpty then "└── ".data else "├── ".data), true⟩ ::
          (treeList ex (ind ++ (if rest.isEmpty then "    ".data else "│   ".data))
              (sortChildren cs) ++
            treeList ex ind rest)
termination_by l => sizeOf l
decreasing_by
  · simp only [List.cons.sizeOf_spec]; omega
  · simp only [List.cons.sizeOf_spec]; omega
  · rename_i cs
    have key : ∀ l₁ l₂ : List FS, l₁.Perm l₂ → sizeOf l₁ = sizeOf l₂ := by
      intro l₁ l₂ h
      induction h with
      | nil => rfl
      | cons x _ ih => simp only [List.cons.sizeOf_spec]; omega
      | swap x y l => simp only [List.cons.sizeOf_spec]; omega
      | trans _ _ ih1 ih2 => omega
    have hs : sizeOf (sortChildren cs) = sizeOf cs :=
      key _ _ (List.perm_insertionSort _ cs)
    simp only [List.cons.sizeOf_spec, FS.dir.sizeOf_spec]
    omega
  · simp only [List.cons.sizeOf_spec]; omega

/-- A natural number printed in decimal. -/
def natStr (n : Nat) : Str := (Nat.repr n).data

/-- The lines written to `directory_tree.txt` (lines 119–132): `.`,
then one line per collected entry (`prefix + basename`), then a final
element that renders as a blank line followed by the summary of
directory and file counts over all collected entries. -/
def treeLines (t : FS) (ex : List Str) : List Str :=
  let entries := treeList ex [] (sortChildren (childrenOf t))
  let dirCount := (entries.filter (·.isd)).length
  let fileCount := (entries.filter fun e => !e.isd).length
  ".".data :: entries.map (fun e => e.pre ++ e.nm) ++
    ["\n".data ++ natStr dirCount ++ " directories, ".data ++ natStr fileCount ++ " files".data]

/-- The contents of `directory_tree.txt`: the lines joined with `\n`. -/
def directory_tree_content (t : FS) (ex : List Str) : Str :=
  joinSep "\n".data (treeLines t ex)

/-! ## Character-level lemmas -/

/-- Case analysis over all characters below a bound: reduces a
statement about every character with `toNat < m` to a decidable
statement over `Fin m`. -/
theorem charCases {m : Nat} (P : Char → Prop) (h : ∀ i : Fin m, P (Char.ofNat i.val)) :
    ∀ c : Char, c.toNat < m → P c := by
  intro c hc
  have hp := h ⟨c.toNat, hc⟩
  rwa [Char.ofNat_toNat] at hp

theorem pyIsWordChar_lt (c : Char) (h : pyIsWordChar c = true) : c.toNat < 0x3BD := by
  simp only [pyIsWordChar, decide_eq_true_eq] at h
  omega

theorem toNat_lt_of_ascii (c : Char) (h : c.toNat < 0x80) : c.toNat < 0x100 := by omega

theorem pyIsSpace_lt (c : Char) (h : pyIsSpace c = true) : c.toNat < 0x100 := by
  simp only [pyIsSpace, decide_eq_true_eq] at h
  omega

theorem pyIsWordChar_not_space (c : Char) (h : pyIsWordChar c = true) :
    pyIsSpace c = false := by
  simp only [pyIsWordChar, decide_eq_true_eq] at h
  simp only [pyIsSpace, decide_eq_false_iff_not]
  omega

theorem pyIsWordChar_not_dash (c : Char) (h : pyIsWordChar c = true) :
    isDashOrSpace c = false := by
  simp only [isDashOrSpace, pyIsWordChar_not_space c h, Bool.false_or, decide_eq_false_iff_not]
  intro hc
  subst hc
  simp [pyIsWordChar] at h

set_option maxRecDepth 8192 in
theorem pyLowerExp_word (c : Char) (hlt : c.toNat < 0x100) (h : pyIsWordChar c = true) :
    pyLowerExp c = [lower1 c] ∧ pyIsWordChar (lower1 c) = true ∧
      pyLowerExp (lower1 c) = [lower1 c] ∧ isDashOrSpace (lower1 c) = false := by
  refine charCases (fun c => pyIsWordChar c = true →
    (pyLowerExp c = [lower1 c] ∧ pyIsWordChar (lower1 c) = true ∧
      pyLowerExp (lower1 c) = [lower1 c] ∧ isDashOrSpace (lower1 c) = false)) ?_ c hlt h
  decide

set_option maxRecDepth 8192 in
theorem pyLowerExp_space (c : Char) (h : pyIsSpace c = true) : pyLowerExp c = [c] := by
  refine charCases (fun c => pyIsSpace c = true → pyLowerExp c = [c]) ?_ c (pyIsSpace_lt c h) h
  decide

theorem pyLowerExp_dash : pyLowerExp '-' = ['-'] := by decide

theorem pyLowerExp_underscore : pyLowerExp '_' = ['_'] := by decide

set_option maxRecDepth 8192 in
theorem pyLowerExp_idem (c : Char) (d : Char) (hd : d ∈ pyLowerExp c) :
    pyLowerExp d = [d] := by
  by_cases hc : c.toNat < 0x200
  · revert hd
    refine charCases (fun c => ∀ d ∈ pyLowerExp c, pyLowerExp d = [d]) ?_ c hc d
    decide
  · have hexp : pyLowerExp c = [c] := by
      unfold pyLowerExp
      rw [if_neg (by omega), if_neg (by omega), if_neg (by omega), if_neg (by omega)]
    rw [hexp] at hd
    simp only [List.mem_singleton] at hd
    subst hd
    exact by
      unfold pyLowerExp
      rw [if_neg (by omega), if_neg (by omega), if_neg (by omega), if_neg (by omega)]

/-! ## Membership and identity lemmas for the sanitiser's passes -/

theorem mem_subNonWord (s : Str) (c : Char) (h : c ∈ subNonWord s) :
    c = '_' ∨ (c ∈ s ∧ (pyIsWordChar c || pyIsSpace c || c = '-') = true) := by
  simp only [subNonWord, List.mem_map] at h
  obtain ⟨a, ha, hac⟩ := h
  by_cases hcond : (pyIsWordChar a || pyIsSpace a || a = '-') = true
  · rw [if_pos hcond] at hac
    subst hac
    exact Or.inr ⟨ha, hcond⟩
  · rw [if_neg hcond] at hac
    exact Or.inl hac.symm

theorem mem_pyStrip (s : Str) (c : Char) (h : c ∈ pyStrip s) : c ∈ s := by
  unfold pyStrip at h
  rw [List.mem_reverse] at h
  have h1 := (List.dropWhile_sublist (l := (s.dropWhile pyIsSpace).reverse) pyIsSpace).mem h
  rw [List.mem_reverse] at h1
  exact (List.dropWhile_sublist (l := s) pyIsSpace).mem h1

theorem mem_pyLower (s : Str) (c : Char) (h : c ∈ pyLower s) :
    ∃ d ∈ s, c ∈ pyLowerExp d := by
  simpa only [pyLower, List.mem_flatMap] using h

theorem mem_collapseRuns (b : Bool) (s : Str) (c : Char) (h : c ∈ collapseRuns b s) :
    c = '_' ∨ (c ∈ s ∧ isDashOrSpace c = false) := by
  induction s generalizing b with
  | nil => simp [collapseRuns] at h
  | cons a as ih =>
    by_cases hd : isDashOrSpace a = true
    · rw [collapseRuns, if_pos hd] at h
      by_cases hb : b
      · subst hb
        rw [if_pos rfl] at h
        rcases ih true h with h1 | ⟨h1, h2⟩
        · exact Or.inl h1
        · exact Or.inr ⟨List.mem_cons_of_mem a h1, h2⟩
      · simp only [Bool.not_eq_true] at hb
        subst hb
        simp only [Bool.false_eq_true, if_false, List.mem_cons] at h
        rcases h with h | h
        · exact Or.inl h
        · rcases ih true h with h1 | ⟨h1, h2⟩
          · exact Or.inl h1
          · exact Or.inr ⟨List.mem_cons_of_mem a h1, h2⟩
    · simp only [Bool.not_eq_true] at hd
      rw [collapseRuns, hd] at h
      simp only [Bool.false_eq_true, if_false, List.mem_cons] at h
      rcases h with h | h
      · subst h
        exact Or.inr ⟨List.mem_cons_self c as, hd⟩
      · rcases ih false h with h1 | ⟨h1, h2⟩
        · exact Or.inl h1
        · exact Or.inr ⟨List.mem_cons_of_mem a h1, h2⟩

theorem subNonWord_id (s : Str) (h : ∀ c ∈ s, pyIsWordChar c = true) :
    subNonWord s = s := by
  induction s with
  | nil => rfl
  | cons a as ih =>
    have ha := h a (List.mem_cons_self a as)
    simp only [subNonWord, List.map_cons, ha, Bool.true_or, if_pos]
    exact congrArg (a :: ·) (ih fun c hc => h c (List.mem_cons_of_mem a hc))

theorem dropWhile_id (p : Char → Bool) (s : Str) (h : ∀ c ∈ s, p c = false) :
    s.dropWhile p = s := by
  cases s with
  | nil => rfl
  | cons a as => simp [List.dropWhile, h a (List.mem_cons_self a as)]

theorem pyStrip_id (s : Str) (h : ∀ c ∈ s, pyIsSpace c = false) : pyStrip s = s := by
  unfold pyStrip
  rw [dropWhile_id pyIsSpace s h,
    dropWhile_id pyIsSpace s.reverse (fun c hc => h c (List.mem_reverse.mp hc)),
    List.reverse_reverse]

theorem pyLower_id (s : Str) (h : ∀ c ∈ s, pyLowerExp c = [c]) : pyLower s = s := by
  induction s with
  | nil => rfl
  | cons a as ih =>
    simp only [pyLower, List.flatMap_cons, h a (List.mem_cons_self a as)]
    exact congrArg (a :: ·) (ih fun c hc => h c (List.mem_cons_of_mem a hc))

theorem collapseRuns_id (s : Str) (h : ∀ c ∈ s, isDashOrSpace c = false) :
    collapseRuns false s = s := by
  induction s with
  | nil => rfl
  | cons a as ih =>
    rw [collapseRuns, h a (List.mem_cons_self a as)]
    simp only [Bool.false_eq_true, if_false]
    exact congrArg (a :: ·) (ih fun c hc => h c (List.mem_cons_of_mem a hc))

/-- Every character of `sanitise_filename s`, for a Latin-1 input `s`,
is a word character that is fixed by lowering and is not a
hyphen/whitespace character. -/
theorem sanitise_output_chars (s : Str) (hs : ∀ c ∈ s, c.toNat < 0x100) :
    ∀ c ∈ sanitise_filename s,
      pyIsWordChar c = true ∧ pyLowerExp c = [c] ∧ isDashOrSpace c = false := by
  intro c hc
  rcases mem_collapseRuns false _ c hc with h | ⟨h, hnd⟩
  · subst h
    exact ⟨by decide, by decide, by decide⟩
  rcases mem_pyLower _ c h with ⟨d, hd, hcd⟩
  have hd' := mem_pyStrip _ d hd
  rcases mem_subNonWord s d hd' with h1 | ⟨h1, h2⟩
  · subst h1
    rw [pyLowerExp_underscore] at hcd
    simp only [List.mem_singleton] at hcd
    subst hcd
    exact ⟨by decide, by decide, by decide⟩
  · have hdlt := hs d h1
    simp only [Bool.or_eq_true, decide_eq_true_eq] at h2
    rcases h2 with (h2 | h2) | h2
    · obtain ⟨he, hw, hfix, hnd2⟩ := pyLowerExp_word d hdlt h2
      rw [he] at hcd
      simp only [List.mem_singleton] at hcd
      subst hcd
      exact ⟨hw, hfix, hnd⟩
    · rw [pyLowerExp_space d h2] at hcd
      simp only [List.mem_singleton] at hcd
      subst hcd
      rw [isDashOrSpace, h2] at hnd
      simp at hnd
    · subst h2
      rw [pyLowerExp_dash] at hcd
      simp only [List.mem_singleton] at hcd
      subst hcd
      simp [isDashOrSpace] at hnd

/-! ## Claims C3 and C5: sanitiser output alphabet and idempotence -/

/-- C3 counterexample: the claim says every character of
`sanitise_filename x` lies in `[a-z0-9_]` for *every* input string, but
the regex `[^\w\s-]` leaves non-ASCII word characters untouched:
`sanitise_filename "É"` is `"é"`, whose only character is not in
`[a-z0-9_]`. -/
theorem c3_counterexample :
    sanitise_filename "É".data = "é".data ∧
      ((sanitise_filename "É".data).all isSafeChar = true → False) := by
  constructor
  · decide
  · decide

/-- C3 (amended): for every ASCII input string, every character of
`sanitise_filename x` is in `[a-z0-9_]`: no path separator, whitespace,
punctuation or uppercase letter survives sanitisation. -/
theorem c3_amended (s : Str) (h : s.all (fun c => decide (c.toNat < 0x80)) = true) :
    (sanitise_filename s).all isSafeChar = true := by
  rw [List.all_eq_true] at h ⊢
  intro c hc
  rcases mem_collapseRuns false _ c hc with h1 | ⟨h1, hnd⟩
  · subst h1
    decide
  rcases mem_pyLower _ c h1 with ⟨d, hd, hcd⟩
  have hd' := mem_pyStrip _ d hd
  rcases mem_subNonWord s d hd' with h2 | ⟨h2, h3⟩
  · subst h2
    rw [pyLowerExp_underscore] at hcd
    simp only [List.mem_singleton] at hcd
    subst hcd
    decide
  · have hdlt : d.toNat < 0x80 := by
      have := h d h2
      simpa using this
    simp only [Bool.or_eq_true, decide_eq_true_eq] at h3
    rcases h3 with (h3 | h3) | h3
    · obtain ⟨he, _, _, _⟩ := pyLowerExp_word d (toNat_lt_of_ascii d hdlt) h3
      rw [he] at hcd
      simp only [List.mem_singleton] at hcd
      subst hcd
      revert h3
      refine charCases (fun d => pyIsWordChar d = true → isSafeChar (lower1 d) = true) ?_ d hdlt
      decide
    · rw [pyLowerExp_space d h3] at hcd
      simp only [List.mem_singleton] at hcd
      subst hcd
      rw [isDashOrSpace, h3] at hnd
      simp at hnd
    · subst h3
      rw [pyLowerExp_dash] at hcd
      simp only [List.mem_singleton] at hcd
      subst hcd
      simp [isDashOrSpace] at hnd

/-- Witness for `c3_amended` at the concrete ASCII input `"A b.c"`. -/
theorem c3_amended_witness :
    "A b.c".data.all (fun c => decide (c.toNat < 0x80)) = true ∧
      (sanitise_filename "A b.c".data).all isSafeChar = true :=
  ⟨by decide, c3_amended "A b.c".data (by decide)⟩

/-- C5 counterexample: `sanitise_filename` is not idempotent on every
string.  Python lowers `İ` (U+0130) to the two code points `i` +
combining dot above (U+0307); the combining dot is a word character for
neither pass, so a second sanitisation turns it into `_`. -/
theorem c5_counterexample :
    sanitise_filename "İ".data = ['i', Char.ofNat 0x307] ∧
      sanitise_filename (sanitise_filename "İ".data) = "i_".data ∧
      (sanitise_filename (sanitise_filename "İ".data) = sanitise_filename "İ".data → False) := by
  refine ⟨by decide, by decide, ?_⟩
  decide

/-- C5 (amended): `sanitise_filename` is idempotent on every string of
Latin-1 code points (in particular on every ASCII string):
`sanitise_filename (sanitise_filename x) = sanitise_filename x`. -/
theorem c5_amended (s : Str) (h : s.all (fun c => decide (c.toNat < 0x100)) = true) :
    sanitise_filename (sanitise_filename s) = sanitise_filename s := by
  rw [List.all_eq_true] at h
  have hout := sanitise_output_chars s (fun c hc => by simpa using h c hc)
  conv_lhs => rw [sanitise_filename]
  rw [subNonWord_id _ (fun c hc => (hout c hc).1),
    pyStrip_id _ (fun c hc => pyIsWordChar_not_space c (hout c hc).1),
    pyLower_id _ (fun c hc => (hout c hc).2.1),
    collapseRuns_id _ (fun c hc => (hout c hc).2.2)]

/-- Witness for `c5_amended` at the concrete Latin-1 input `"Café -- x"`. -/
theorem c5_amended_witness :
    "Café -- x".data.all (fun c => decide (c.toNat < 0x100)) = true ∧
      sanitise_filename (sanitise_filename "Café -- x".data) =
        sanitise_filename "Café -- x".data :=
  ⟨by decide, c5_amended "Café -- x".data (by decide)⟩

/-! ## Helper lemmas about the renderer, joins and extensions -/

theorem render_trailing (r c g : Str) : ∃ q, render r c g = q ++ "\n\n".data := by
  unfold render
  by_cases hg : g = []
  · rw [if_pos hg]
    exact ⟨"# File Name: ".data ++ r ++ "\n".data ++ ("# File Contents:\n".data ++ c),
      by simp [List.append_assoc]⟩
  · rw [if_neg hg]
    refine ⟨("# File Name: ".data ++ r ++ "\n".data ++ "# File Contents:\n".data) ++
      ("```".data ++ g ++ "\n".data ++ c ++ "\n```".data), ?_⟩
    have hlit : ("\n```\n\n".data : Str) = "\n```".data ++ "\n\n".data := by decide
    rw [hlit]
    simp only [List.append_assoc]

theorem joinSep_cons (sep : Str) (f : Str) (rest : List Str) :
    joinSep sep (f :: rest) = f ++ rest.flatMap fun g => sep ++ g := by
  induction rest generalizing f with
  | nil => simp [joinSep]
  | cons g rest ih =>
    rw [joinSep, ih g]
    simp [List.append_assoc]

theorem joinSep_trailing (sep : Str) (fr : List Str) (hne : fr ≠ [])
    (h : ∀ f ∈ fr, ∃ q, f = q ++ "\n\n".data) :
    ∃ q, joinSep sep fr = q ++ "\n\n".data := by
  induction fr with
  | nil => exact absurd rfl hne
  | cons f rest ih =>
    cases rest with
    | nil =>
      obtain ⟨q, hq⟩ := h f (List.mem_cons_self f [])
      exact ⟨q, by simpa [joinSep] using hq⟩
    | cons g rest' =>
      obtain ⟨q, hq⟩ := ih (by simp) (fun x hx => h x (List.mem_cons_of_mem f hx))
      refine ⟨f ++ sep ++ q, ?_⟩
      rw [joinSep, hq]
      simp [List.append_assoc]

theorem sep_not_suffix_of_trailing (x : Str) :
    "---\n".data.isSuffixOf (x ++ "\n\n".data) = false := by
  simp only [List.isSuffixOf, List.reverse_append]
  have h2 : ("\n\n".data : Str).reverse = ['\n', '\n'] := by decide
  have h1 : ("---\n".data : Str).reverse = ['\n', '-', '-', '-'] := by decide
  rw [h1, h2]
  simp [List.isPrefixOf]

theorem pyLowerExp_ne_nil (c : Char) : pyLowerExp c ≠ [] := by
  unfold pyLowerExp
  split_ifs <;> simp

theorem pyLower_isEmpty (s : Str) : (pyLower s).isEmpty = s.isEmpty := by
  cases s with
  | nil => rfl
  | cons a as =>
    simp only [pyLower, List.flatMap_cons, List.isEmpty_cons]
    cases hpe : pyLowerExp a with
    | nil => exact absurd hpe (pyLowerExp_ne_nil a)
    | cons x xs => simp

theorem extOf_cases (s : Str) : extOf s = [] ∨ ∃ t, extOf s = '.' :: t ∧ '.' ∉ t := by
  unfold extOf
  by_cases h : (s.dropWhile (· = '.')).contains '.'
  · refine Or.inr ⟨_, by rw [if_pos h], fun hm => ?_⟩
    rw [List.mem_reverse] at hm
    have := List.mem_takeWhile_imp hm
    simp at this
  · exact Or.inl (by rw [if_neg h])

set_option maxRecDepth 8192 in
theorem pyLowerExp_dot (d : Char) (h : '.' ∈ pyLowerExp d) : d = '.' := by
  by_cases hd : d.toNat < 0x200
  · revert h
    exact charCases (fun d => '.' ∈ pyLowerExp d → d = '.') (by decide) d hd
  · have hexp : pyLowerExp d = [d] := by
      unfold pyLowerExp
      rw [if_neg (by omega), if_neg (by omega), if_neg (by omega), if_neg (by omega)]
    rw [hexp] at h
    simp only [List.mem_singleton] at h
    exact h.symm

theorem dot_not_mem_pyLower (s : Str) (h : '.' ∉ s) : '.' ∉ pyLower s := by
  intro hm
  obtain ⟨d, hd, hdm⟩ := mem_pyLower s '.' hm
  exact h (pyLowerExp_dot d hdm ▸ hd)

theorem pyLower_dot_cons (t : Str) : pyLower ('.' :: t) = '.' :: pyLower t := by
  have : pyLowerExp '.' = ['.'] := by decide
  simp [pyLower, List.flatMap_cons, this]

/-! ## Characterising the content-pass loop body -/

theorem processFile_eq (sel : List Str) (rel : List Str) (fname : Str)
    (contents : Option Str) :
    processFile sel rel fname contents =
      if includePredB sel fname then
        (contents.map fun c =>
          render (joinSep "/".data (rel ++ [fname])) c ((pyLower (extOf fname)).drop 1)).toList
      else [] := by
  unfold processFile includePredB
  by_cases h1 : fname = ".DS_Store".data
  · simp [h1]
  by_cases h2 : fname = ".env".data
  · simp [h2]
  rw [if_neg (by tauto)]
  have hb1 : (fname == ".DS_Store".data) = false := by simpa using h1
  have hb2 : (fname == ".env".data) = false := by simpa using h2
  rw [hb1, hb2]
  simp only [Bool.not_false, Bool.true_and, pyLower_isEmpty]
  by_cases hsel :
      (sel.contains (pyLower (extOf fname)) || ((extOf fname).isEmpty && sel.contains fname)) = true
  · rw [if_pos hsel, if_pos hsel]
    cases contents <;> simp
  · rw [if_neg hsel, if_neg hsel]

theorem processFileEffects_eq (sel : List Str) (rel : List Str) (fname : Str)
    (contents : Option Str) :
    processFileEffects sel rel fname contents =
      if includePredB sel fname then
        (generate_markdown_from_file (readResultOf contents)
          (joinSep "/".data (rel ++ [fname]))
          (joinSep "/".data
            (rel ++ [sanitise_filename (joinSep "/".data (rel ++ [fname])) ++ ".txt".data]))
          (joinSep "/".data (rel ++ [fname])) ((pyLower (extOf fname)).drop 1)).1
      else [] := by
  unfold processFileEffects includePredB
  by_cases h1 : fname = ".DS_Store".data
  · simp [h1]
  by_cases h2 : fname = ".env".data
  · simp [h2]
  rw [if_neg (by tauto)]
  have hb1 : (fname == ".DS_Store".data) = false := by simpa using h1
  have hb2 : (fname == ".env".data) = false := by simpa using h2
  rw [hb1, hb2]
  simp only [Bool.not_false, Bool.true_and, pyLower_isEmpty]

theorem flatMap_congr_mem {α β : Type} (l : List α) (f g : α → List β)
    (h : ∀ a ∈ l, f a = g a) : l.flatMap f = l.flatMap g := by
  induction l with
  | nil => rfl
  | cons a rest ih =>
    rw [List.flatMap_cons, List.flatMap_cons, h a (List.mem_cons_self a rest),
      ih fun x hx => h x (List.mem_cons_of_mem a hx)]

theorem flatMap_guard_filter {α β : Type} (l : List α) (p : α → Bool) (f : α → List β) :
    (l.flatMap fun a => if p a then f a else []) = (l.filter p).flatMap f := by
  induction l with
  | nil => rfl
  | cons a rest ih =>
    rw [List.flatMap_cons, List.filter_cons]
    by_cases h : p a
    · rw [if_pos h, if_pos h, List.flatMap_cons, ih]
    · rw [if_neg h, if_neg h, List.nil_append, ih]

theorem flatMap_toList {α β : Type} (l : List α) (g : α → Option β) :
    (l.flatMap fun a => (g a).toList) = l.filterMap g := by
  induction l with
  | nil => rfl
  | cons a rest ih =>
    rw [List.flatMap_cons, List.filterMap_cons]
    cases g a <;> simp [ih]

/-! ## Claim C7: the rendered markdown fragment -/

/-- C7: for every relative path `p`, contents `c` and language tag `g`,
the rendered fragment is exactly the header `# File Name: p`, the label
`# File Contents:`, then a fenced block tagged `g` around `c` when `g`
is non-empty and the raw `c` when `g` is empty, ending with two
newlines in both cases; `c` appears byte-for-byte; the spec's
round-trip example is reproduced verbatim. -/
theorem c7_render_fragment :
    (∀ p c g : Str, render p c g =
        "# File Name: ".data ++ p ++ "\n# File Contents:\n".data ++
          (if g = [] then c ++ "\n\n".data
           else "```".data ++ g ++ "\n".data ++ c ++ "\n```\n\n".data)) ∧
      (∀ p c g : Str, ∃ q, render p c g = q ++ "\n\n".data) ∧
      render "a/b.py".data "print(\"hi\")".data "py".data =
        "# File Name: a/b.py\n# File Contents:\n```py\nprint(\"hi\")\n```\n\n".data := by
  refine ⟨?_, render_trailing, by decide⟩
  intro p c g
  unfold render
  have hlit : ("\n# File Contents:\n".data : Str) = "\n".data ++ "# File Contents:\n".data := by
    decide
  rw [hlit]
  by_cases hg : g = [] <;> simp [hg, List.append_assoc]

/-! ## Claim C10: read failure leaves no output file -/

/-- C10: `generate_markdown_from_file` reads the input file in full
before the output file is opened: its trace starts with the read, no
write effect occurs unless the read succeeded (so a
`UnicodeDecodeError` or any other read failure creates or truncates no
output file), every exception is caught so the function returns
normally, and on success exactly the rendered fragment is written. -/
theorem c10_read_before_write (r : ReadResult) (inP outP rel lang : Str) :
    (generate_markdown_from_file r inP outP rel lang).2 = false ∧
      (generate_markdown_from_file r inP outP rel lang).1.head? =
        some (.readFile inP) ∧
      ((∀ c, r ≠ .ok c) →
        writesOf (generate_markdown_from_file r inP outP rel lang).1 = []) ∧
      (∀ c, r = .ok c →
        (generate_markdown_from_file r inP outP rel lang).1 =
          [.readFile inP, .writeFile outP (render rel c lang)]) := by
  cases r with
  | ok c => exact ⟨rfl, rfl, fun h => absurd rfl (h c), fun c' hc => by cases hc; rfl⟩
  | unicodeError => exact ⟨rfl, rfl, fun _ => rfl, fun c hc => by cases hc⟩
  | otherError => exact ⟨rfl, rfl, fun _ => rfl, fun c hc => by cases hc⟩

/-- Witness for `c10_read_before_write`: a concrete undecodable file
produces a read effect and no write effect. -/
theorem c10_witness :
    writesOf (generate_markdown_from_file ReadResult.unicodeError "a.py".data
        "a_py.txt".data "a.py".data "py".data).1 = [] ∧
      (generate_markdown_from_file ReadResult.unicodeError "a.py".data
        "a_py.txt".data "a.py".data "py".data).2 = false :=
  ⟨(c10_read_before_write .unicodeError "a.py".data "a_py.txt".data "a.py".data
      "py".data).2.2.1 (fun c h => by cases h),
    (c10_read_before_write .unicodeError "a.py".data "a_py.txt".data "a.py".data
      "py".data).1⟩

/-! ## Claim C8: the content-pass file filter -/

/-- C8: in both output modes the content pass processes a file from a
walked, non-excluded directory exactly when `includePredB` holds: its
name is neither `.DS_Store` nor `.env`, and its lowercased extension is
selected or its extension is empty while its full name is selected;
`.DS_Store` and `.env` are never content-processed whatever the
selection. -/
theorem c8_content_pass :
    (∀ (t : FS) (sel ex : List Str),
      singleFileFragments t sel ex = (osWalk t).flatMap fun e =>
        if should_exclude_directory e.dirName ex then []
        else (e.files.filter fun fc => includePredB sel fc.1).filterMap fun fc =>
          fc.2.map fun c =>
            render (joinSep "/".data (e.rel ++ [fc.1])) c ((pyLower (extOf fc.1)).drop 1)) ∧
      (∀ (t : FS) (sel ex : List Str),
        perFileEffects t sel ex = (osWalk t).flatMap fun e =>
          if should_exclude_directory e.dirName ex then []
          else (e.files.filter fun fc => includePredB sel fc.1).flatMap fun fc =>
            (generate_markdown_from_file (readResultOf fc.2)
              (joinSep "/".data (e.rel ++ [fc.1]))
              (joinSep "/".data (e.rel ++
                [sanitise_filename (joinSep "/".data (e.rel ++ [fc.1])) ++ ".txt".data]))
              (joinSep "/".data (e.rel ++ [fc.1]))
              ((pyLower (extOf fc.1)).drop 1)).1) ∧
      (∀ (sel rel' : List Str) (contents : Option Str),
        processFile sel rel' ".DS_Store".data contents = [] ∧
        processFile sel rel' ".env".data contents = [] ∧
        processFileEffects sel rel' ".DS_Store".data contents = [] ∧
        processFileEffects sel rel' ".env".data contents = []) := by
  refine ⟨?_, ?_, ?_⟩
  · intro t sel ex
    unfold singleFileFragments
    refine flatMap_congr_mem _ _ _ fun e _ => ?_
    by_cases he : should_exclude_directory e.dirName ex
    · rw [if_pos he, if_pos he]
    · rw [if_neg he, if_neg he, ← flatMap_toList]
      rw [← flatMap_guard_filter]
      exact flatMap_congr_mem _ _ _ fun fc _ => processFile_eq sel e.rel fc.1 fc.2
  · intro t sel ex
    unfold perFileEffects
    refine flatMap_congr_mem _ _ _ fun e _ => ?_
    by_cases he : should_exclude_directory e.dirName ex
    · rw [if_pos he, if_pos he]
    · rw [if_neg he, if_neg he, ← flatMap_guard_filter]
      exact flatMap_congr_mem _ _ _ fun fc _ => processFileEffects_eq sel e.rel fc.1 fc.2
  · intro sel rel' contents
    refine ⟨?_, ?_, ?_, ?_⟩ <;> simp [processFile, processFileEffects]

/-! ## Claim C6: the single-file separator -/

theorem mem_singleFileFragments (t : FS) (sel ex : List Str) (f : Str)
    (h : f ∈ singleFileFragments t sel ex) : ∃ r c g, f = render r c g := by
  unfold singleFileFragments at h
  rw [List.mem_flatMap] at h
  obtain ⟨e, _, hm⟩ := h
  by_cases he : should_exclude_directory e.dirName ex
  · rw [if_pos he] at hm
    simp at hm
  · rw [if_neg he, List.mem_flatMap] at hm
    obtain ⟨⟨fname, fcont⟩, _, hf⟩ := hm
    rw [processFile_eq] at hf
    by_cases hp : includePredB sel fname
    · rw [if_pos hp] at hf
      cases fcont with
      | none => simp at hf
      | some c =>
        simp only [Option.map_some', Option.toList_some, List.mem_singleton] at hf
        exact ⟨_, _, _, hf⟩
    · rw [if_neg hp] at hf
      simp at hf

/-- C6: in single-file mode the contents of `all_files.txt` are exactly
the successfully rendered fragments, in walk order, joined by the
literal separator `"---\n"`: with fragments `f :: rest` the file is
`f` followed by one `"---\n" ++ fragment` block per remaining fragment
(`n - 1` separators, each between two consecutive fragments), and the
file never ends with the separator. -/
theorem c6_single_file_join (t : FS) (sel ex : List Str) :
    (all_files_content t sel ex = joinSep "---\n".data (singleFileFragments t sel ex)) ∧
      (∀ f rest, singleFileFragments t sel ex = f :: rest →
        all_files_content t sel ex = f ++ rest.flatMap fun g => "---\n".data ++ g) ∧
      (singleFileFragments t sel ex ≠ [] →
        "---\n".data.isSuffixOf (all_files_content t sel ex) = false) := by
  refine ⟨rfl, ?_, ?_⟩
  · intro f rest hfr
    unfold all_files_content
    rw [hfr, joinSep_cons]
  · intro hne
    obtain ⟨q, hq⟩ := joinSep_trailing "---\n".data (singleFileFragments t sel ex) hne
      (fun f hf => by
        obtain ⟨r, c, g, hrcg⟩ := mem_singleFileFragments t sel ex f hf
        exact hrcg ▸ render_trailing r c g)
    have hc : all_files_content t sel ex = q ++ "\n\n".data := hq
    rw [hc]
    exact sep_not_suffix_of_trailing q

/-- Witness for `c6_single_file_join` at the spec's scenario: two
matching files, two fragments, one separator, no trailing separator. -/
theorem c6_witness :
    singleFileFragments
        (FS.dir "r".data [FS.file "a.py".data (some "x".data),
          FS.file "b.py".data (some "y".data)]) [".py".data] [] =
      ["# File Name: a.py\n# File Contents:\n```py\nx\n```\n\n".data,
        "# File Name: b.py\n# File Contents:\n```py\ny\n```\n\n".data] ∧
      all_files_content
          (FS.dir "r".data [FS.file "a.py".data (some "x".data),
            FS.file "b.py".data (some "y".data)]) [".py".data] [] =
        ("# File Name: a.py\n# File Contents:\n```py\nx\n```\n\n".data ++
          "---\n".data ++ "# File Name: b.py\n# File Contents:\n```py\ny\n```\n\n".data) ∧
      "---\n".data.isSuffixOf
        (all_files_content
          (FS.dir "r".data [FS.file "a.py".data (some "x".data),
            FS.file "b.py".data (some "y".data)]) [".py".data] []) = false := by
  have hfr : singleFileFragments
      (FS.dir "r".data [FS.file "a.py".data (some "x".data),
        FS.file "b.py".data (some "y".data)]) [".py".data] [] =
      ["# File Name: a.py\n# File Contents:\n```py\nx\n```\n\n".data,
        "# File Name: b.py\n# File Contents:\n```py\ny\n```\n\n".data] := by
    simp only [singleFileFragments, osWalk, walkChildren, filesOf]
    decide
  refine ⟨hfr, ?_, ?_⟩
  · have h2 := (c6_single_file_join
      (FS.dir "r".data [FS.file "a.py".data (some "x".data),
        FS.file "b.py".data (some "y".data)]) [".py".data] []).2.1 _ _ hfr
    rw [h2]
    decide
  · exact (c6_single_file_join
      (FS.dir "r".data [FS.file "a.py".data (some "x".data),
        FS.file "b.py".data (some "y".data)]) [".py".data] []).2.2
      (by rw [hfr]; simp)

/-! ## Claim C9: dotfiles that also carry an extension -/

theorem startsDot_cases (n : Str) (h : startsDot n = true) : ∃ m, n = '.' :: m := by
  cases n with
  | nil => simp [startsDot] at h
  | cons c m =>
    simp only [startsDot, decide_eq_true_eq] at h
    exact ⟨m, by rw [h]⟩

theorem extOf_ne_nil_dot_mem (n : Str) (h : extOf n ≠ []) :
    '.' ∈ n.dropWhile (· = '.') := by
  unfold extOf at h
  by_cases hc : (n.dropWhile (· = '.')).contains '.'
  · simpa using hc
  · exact absurd (by rw [if_neg hc]) h

theorem includePredB_dotfile_key (n : Str) (hn : startsDot n = true)
    (hext : extOf n ≠ []) (fname : Str) : includePredB [n] fname = false := by
  obtain ⟨m, hm⟩ := startsDot_cases n hn
  have hdotm : '.' ∈ m := by
    have h1 := extOf_ne_nil_dot_mem n hext
    rw [hm] at h1
    have h2 : ('.' :: m).dropWhile (· = '.') = m.dropWhile (· = '.') := by
      simp [List.dropWhile]
    rw [h2] at h1
    exact (List.dropWhile_sublist _).mem h1
  have hc1 : ([n].contains (pyLower (extOf fname))) = false := by
    simp only [List.contains_cons, List.contains_nil, Bool.or_false, beq_eq_false_iff_ne,
      ne_eq]
    intro heq
    rcases extOf_cases fname with hnil | ⟨t, ht, hdt⟩
    · rw [hnil] at heq
      simp only [pyLower, List.flatMap_nil] at heq
      rw [hm] at heq
      cases heq
    · rw [ht, pyLower_dot_cons] at heq
      rw [hm] at heq
      have : pyLower t = m := by
        injection heq
      exact dot_not_mem_pyLower t hdt (this ▸ hdotm)
  have hc2 : ((extOf fname).isEmpty && [n].contains fname) = false := by
    by_cases hemp : (extOf fname).isEmpty
    · have hnil : extOf fname = [] := by
        cases hh : extOf fname
        · rfl
        · rw [hh] at hemp; simp at hemp
      simp only [List.contains_cons, List.contains_nil, Bool.or_false]
      have : (fname == n) = false := by
        simp only [beq_eq_false_iff_ne, ne_eq]
        intro heq
        exact hext (heq ▸ hnil)
      rw [this, Bool.and_false]
    · simp only [Bool.not_eq_true] at hemp
      rw [hemp, Bool.false_and]
  unfold includePredB
  rw [hc1, hc2]
  simp

/-- C9: a file whose name starts with `.` and still has a non-empty
`splitext` extension (such as `.env.local`) is catalogued by
`discover_extensions` under its full name, but the content pass never
matches that key: its test uses the file's non-empty lowercased
extension and falls back to full-name matching only when the extension
is empty, so selecting exactly that catalog key processes zero files in
either output mode. -/
theorem c9_dotfile_key_unmatchable :
    (∀ (n : Str) (c : Option Str) (r : Str) (ex : List Str), startsDot n = true →
      should_exclude_directory n ex = false →
      discover_extensions (FS.dir r [FS.file n c]) ex = [(n, 1)]) ∧
      (∀ (t : FS) (n : Str) (ex : List Str), startsDot n = true → extOf n ≠ [] →
        singleFileFragments t [n] ex = [] ∧ perFileEffects t [n] ex = []) := by
  constructor
  · intro n c r ex hn hex
    simp only [discover_extensions, childrenOf, scanKeys, hex, hn, Bool.false_eq_true,
      if_false, if_true, List.append_nil, List.nil_append]
    rfl
  · intro t n ex hn hext
    have hpf : ∀ (rel : List Str) (fname : Str) (contents : Option Str),
        processFile [n] rel fname contents = [] := by
      intro rel fname contents
      rw [processFile_eq, includePredB_dotfile_key n hn hext fname]
      simp
    have hpe : ∀ (rel : List Str) (fname : Str) (contents : Option Str),
        processFileEffects [n] rel fname contents = [] := by
      intro rel fname contents
      rw [processFileEffects_eq, includePredB_dotfile_key n hn hext fname]
      simp
    constructor
    · unfold singleFileFragments
      refine List.flatMap_eq_nil_iff.mpr fun e _ => ?_
      by_cases he : should_exclude_directory e.dirName ex
      · rw [if_pos he]
      · rw [if_neg he]
        exact List.flatMap_eq_nil_iff.mpr fun fc _ => hpf e.rel fc.1 fc.2
    · unfold perFileEffects
      refine List.flatMap_eq_nil_iff.mpr fun e _ => ?_
      by_cases he : should_exclude_directory e.dirName ex
      · rw [if_pos he]
      · rw [if_neg he]
        exact List.flatMap_eq_nil_iff.mpr fun fc _ => hpe e.rel fc.1 fc.2

/-- Witness for `c9_dotfile_key_unmatchable` at `.env.local`. -/
theorem c9_witness :
    discover_extensions (FS.dir "r".data [FS.file ".env.local".data (some "x".data)]) [] =
      [(".env.local".data, 1)] ∧
      singleFileFragments (FS.dir "r".data [FS.file ".env.local".data (some "x".data)])
        [".env.local".data] [] = [] ∧
      perFileEffects (FS.dir "r".data [FS.file ".env.local".data (some "x".data)])
        [".env.local".data] [] = [] :=
  ⟨c9_dotfile_key_unmatchable.1 ".env.local".data (some "x".data) "r".data []
      (by decide) (by decide),
    (c9_dotfile_key_unmatchable.2
      (FS.dir "r".data [FS.file ".env.local".data (some "x".data)]) ".env.local".data []
      (by decide) (by decide)).1,
    (c9_dotfile_key_unmatchable.2
      (FS.dir "r".data [FS.file ".env.local".data (some "x".data)]) ".env.local".data []
      (by decide) (by decide)).2⟩

/-! ## Claim C2: case normalisation of keys and matching -/

theorem includePredB_of_ext (sel : List Str) (f : Str) (hf : extOf f ≠ []) :
    includePredB sel f = sel.contains (pyLower (extOf f)) := by
  have h1 : f ≠ ".DS_Store".data := fun he => hf (by rw [he]; decide)
  have h2 : f ≠ ".env".data := fun he => hf (by rw [he]; decide)
  have hb1 : (f == ".DS_Store".data) = false := by simpa using h1
  have hb2 : (f == ".env".data) = false := by simpa using h2
  have hemp : (extOf f).isEmpty = false := by
    cases hh : extOf f with
    | nil => exact absurd hh hf
    | cons a as => simp
  unfold includePredB
  rw [hb1, hb2, hemp]
  simp

/-- C2 counterexample: the claim says every key stored in the
extension catalog, full dotfile names included, is lowercase; but
`discover_extensions` stores a dotfile's name verbatim, so the file
`.ENV` yields the non-lowercase catalog key `.ENV`. -/
theorem c2_counterexample :
    discover_extensions (FS.dir "r".data [FS.file ".ENV".data (some "x".data)]) [] =
      [(".ENV".data, 1)] ∧ (isLowerStr ".ENV".data = true → False) := by
  constructor
  · simp only [discover_extensions, childrenOf, scanKeys]
    decide
  · decide

/-- C2 (amended): extension-derived values are lowercased on both
sides — every string produced by `str.lower` (catalog keys of
non-dotfiles and `--extensions` arguments) is lowercase, and for a file
with a non-empty extension the content-pass test compares exactly the
lowercased extension against the selection (the `.DS_Store`/`.env`
guard and the full-name fallback are immaterial there), so two file
names with the same lowercased extension are treated identically.
Dotfile catalog keys, however, keep their original case and the
empty-extension full-name fallback compares case-sensitively. -/
theorem c2_amended :
    (∀ s : Str, isLowerStr (pyLower s) = true) ∧
      (∀ (sel : List Str) (f : Str), extOf f ≠ [] →
        includePredB sel f = sel.contains (pyLower (extOf f))) ∧
      (∀ (sel : List Str) (f g : Str), extOf f ≠ [] → extOf g ≠ [] →
        pyLower (extOf f) = pyLower (extOf g) →
        includePredB sel f = includePredB sel g) := by
  refine ⟨?_, includePredB_of_ext, ?_⟩
  · intro s
    rw [isLowerStr, List.all_eq_true]
    intro c hc
    obtain ⟨d, _, hcd⟩ := mem_pyLower s c hc
    exact beq_iff_eq.mpr (pyLowerExp_idem d c hcd)
  · intro sel f g hf hg heq
    rw [includePredB_of_ext sel f hf, includePredB_of_ext sel g hg, heq]

/-- Witness for `c2_amended`: `A.PY` and `a.py` against the selection
`[".py"]`. -/
theorem c2_amended_witness :
    isLowerStr (pyLower ".PY".data) = true ∧
      extOf "A.PY".data ≠ [] ∧
      includePredB [".py".data] "A.PY".data =
        [".py".data].contains (pyLower (extOf "A.PY".data)) ∧
      includePredB [".py".data] "A.PY".data = includePredB [".py".data] "a.py".data :=
  ⟨c2_amended.1 ".PY".data, by decide,
    c2_amended.2.1 [".py".data] "A.PY".data (by decide),
    c2_amended.2.2 [".py".data] "A.PY".data "a.py".data (by decide) (by decide) (by decide)⟩

/-! ## Claim C1: the walk of the content pass is not pruned -/

/-- C1 (failing input): on the tree `proj/node_modules/sub/a.py` with
the default exclusions and selection `.py`, the extension catalog and
the rendered tree both prune the whole `node_modules` subtree, but the
content pass still emits the fragment for `node_modules/sub/a.py`:
`generate_markdown_from_directory` checks only each walked root's own
base name and never prunes `os.walk`, so the subtree below an excluded
directory *is* visited. -/
theorem c1_walk_not_pruned :
    singleFileFragments
        (FS.dir "proj".data [FS.dir "node_modules".data
          [FS.dir "sub".data [FS.file "a.py".data (some "x".data)]]]) [".py".data] [] =
      ["# File Name: node_modules/sub/a.py\n# File Contents:\n```py\nx\n```\n\n".data] ∧
      discover_extensions
        (FS.dir "proj".data [FS.dir "node_modules".data
          [FS.dir "sub".data [FS.file "a.py".data (some "x".data)]]]) [] = [] ∧
      treeLines
        (FS.dir "proj".data [FS.dir "node_modules".data
          [FS.dir "sub".data [FS.file "a.py".data (some "x".data)]]]) [] =
        [".".data, "\n0 directories, 0 files".data] := by
  refine ⟨?_, ?_, ?_⟩
  · simp only [singleFileFragments, osWalk, walkChildren, filesOf]
    decide
  · simp only [discover_extensions, childrenOf, scanKeys]
    decide
  · have hs : sortChildren (childrenOf (FS.dir "proj".data [FS.dir "node_modules".data
        [FS.dir "sub".data [FS.file "a.py".data (some "x".data)]]])) =
        [FS.dir "node_modules".data [FS.dir "sub".data [FS.file "a.py".data (some "x".data)]]] :=
      rfl
    have hexc : should_exclude_directory "node_modules".data [] = true := by decide
    simp only [treeLines, hs, treeList, nameOf, hexc, if_true]
    decide

/-! ## Claim C4: tree connectors and exclusion -/

/-- C4 counterexample: the claim says the post-exclusion last sibling
carries `└── `; but with children `alpha` and `node_modules` (the
sorted-last sibling excluded by default), `alpha` — the only rendered
sibling at its level — is rendered with `├── ` and no `└── ` appears:
`is_last` is computed from the index in the full sorted list, excluded
entries included. -/
theorem c4_counterexample :
    treeLines (FS.dir "r".data [FS.dir "alpha".data [],
        FS.dir "node_modules".data []]) [] =
      [".".data, "├── alpha".data, "\n1 directories, 0 files".data] ∧
      (("└── alpha".data ∈ treeLines (FS.dir "r".data [FS.dir "alpha".data [],
        FS.dir "node_modules".data []]) []) → False) := by
  have hs : sortChildren (childrenOf (FS.dir "r".data [FS.dir "alpha".data [],
      FS.dir "node_modules".data []])) =
      [FS.dir "alpha".data [], FS.dir "node_modules".data []] := rfl
  have hs0 : sortChildren [] = ([] : List FS) := rfl
  have hal : should_exclude_directory "alpha".data [] = false := by decide
  have hnm : should_exclude_directory "node_modules".data [] = true := by decide
  have hlines : treeLines (FS.dir "r".data [FS.dir "alpha".data [],
      FS.dir "node_modules".data []]) [] =
      [".".data, "├── alpha".data, "\n1 directories, 0 files".data] := by
    simp only [treeLines, hs, hs0, treeList, nameOf, hal, hnm, if_true, if_false,
      Bool.false_eq_true]
    decide
  refine ⟨hlines, fun hmem => ?_⟩
  rw [hlines] at hmem
  revert hmem
  decide

theorem treeList_head (ex : List Str) (ind : Str) (e : FS) (rest : List FS)
    (hexc : should_exclude_directory (nameOf e) ex = false) :
    (treeList ex ind (e :: rest)).head? =
      some ⟨nameOf e, ind ++ (if rest.isEmpty then "└── ".data else "├── ".data),
        isDirB e⟩ := by
  cases e <;> simp only [nameOf] at hexc <;> simp [treeList, nameOf, isDirB, hexc]

/-- Every rendered entry's prefix extends the current indent by at
least four characters, and a prefix that extends it by exactly `└── `
can only come from the final element of the sibling list, which is then
not excluded. -/
theorem treeList_pre_shape (ex : List Str) :
    ∀ (ind : Str) (l : List FS), ∀ t ∈ treeList ex ind l,
      ∃ s, t.pre = ind ++ s ∧ 4 ≤ s.length ∧
        (s = "└── ".data → ∃ e', l.getLast? = some e' ∧
          should_exclude_directory (nameOf e') ex = false) := by
  intro ind l
  induction ind, l using treeList.induct ex with
  | case1 ind =>
    intro t ht
    simp [treeList] at ht
  | case2 ind e rest hexc ih =>
    intro t ht
    have ht' : t ∈ treeList ex ind rest := by
      cases e with
      | file n c =>
        simp only [nameOf] at hexc
        simpa only [treeList, nameOf, hexc, eq_self_iff_true, if_true] using ht
      | dir n cs =>
        simp only [nameOf] at hexc
        simpa only [treeList, nameOf, hexc, eq_self_iff_true, if_true] using ht
    obtain ⟨s, hpre, hlen, himp⟩ := ih t ht'
    refine ⟨s, hpre, hlen, fun hse => ?_⟩
    obtain ⟨e', hg, hne⟩ := himp hse
    cases rest with
    | nil => simp at hg
    | cons r rs => exact ⟨e', by rw [List.getLast?_cons_cons]; exact hg, hne⟩
  | case3 ind rest n contents hexc ih =>
    intro t ht
    simp only [nameOf] at hexc
    simp only [treeList, nameOf] at ht
    rw [if_neg hexc] at ht
    rcases List.mem_cons.mp ht with h | h
    · subst h
      refine ⟨_, rfl, ?_, ?_⟩
      · by_cases hre : rest.isEmpty <;> simp [hre]
      · intro hse
        by_cases hre : rest.isEmpty
        · have : rest = [] := by simpa [List.isEmpty_iff] using hre
          subst this
          refine ⟨FS.file n contents, rfl, ?_⟩
          simpa using hexc
        · rw [if_neg hre] at hse
          exact absurd hse (by decide)
    · obtain ⟨s, hpre, hlen, himp⟩ := ih t h
      refine ⟨s, hpre, hlen, fun hse => ?_⟩
      obtain ⟨e', hg, hne⟩ := himp hse
      cases rest with
      | nil => simp at hg
      | cons r rs => exact ⟨e', by rw [List.getLast?_cons_cons]; exact hg, hne⟩
  | case4 ind rest n children hexc ihsub ihrest =>
    intro t ht
    simp only [nameOf] at hexc
    simp only [treeList, nameOf] at ht
    rw [if_neg hexc] at ht
    rcases List.mem_cons.mp ht with h | h
    · subst h
      refine ⟨_, rfl, ?_, ?_⟩
      · by_cases hre : rest.isEmpty <;> simp [hre]
      · intro hse
        by_cases hre : rest.isEmpty
        · have : rest = [] := by simpa [List.isEmpty_iff] using hre
          subst this
          refine ⟨FS.dir n children, rfl, ?_⟩
          simpa using hexc
        · rw [if_neg hre] at hse
          exact absurd hse (by decide)
    · rcases List.mem_append.mp h with h | h
      · simp only [dite_eq_ite] at ihsub
        obtain ⟨s', hpre', hlen', _⟩ := ihsub t h
        refine ⟨(if rest.isEmpty then "    ".data else "│   ".data) ++ s', ?_, ?_, ?_⟩
        · rw [hpre', List.append_assoc]
        · rw [List.length_append]
          have h4 : (if rest.isEmpty then "    ".data else "│   ".data).length = 4 := by
            by_cases hre : rest.isEmpty <;> simp [hre]
          omega
        · intro hse
          have hle := congrArg List.length hse
          rw [List.length_append] at hle
          have h4 : (if rest.isEmpty then "    ".data else "│   ".data).length = 4 := by
            by_cases hre : rest.isEmpty <;> simp [hre]
          have : ("└── ".data : Str).length = 4 := by decide
          omega
      · obtain ⟨s, hpre, hlen, himp⟩ := ihrest t h
        refine ⟨s, hpre, hlen, fun hse => ?_⟩
        obtain ⟨e', hg, hne⟩ := himp hse
        cases rest with
        | nil => simp at hg
        | cons r rs => exact ⟨e', by rw [List.getLast?_cons_cons]; exact hg, hne⟩

/-- C4 (amended): a rendered (non-excluded) entry carries the connector
`└── ` exactly when it is the last element of the *full* sorted sibling
list, excluded siblings included: the head connector of a sibling group
is `└── ` iff no sibling follows in the sorted list, and when the
sorted-last sibling of a level is excluded, no entry at that level
carries `└── ` at all. -/
theorem c4_amended :
    (∀ (ex : List Str) (ind : Str) (e : FS) (rest : List FS),
      should_exclude_directory (nameOf e) ex = false →
      (treeList ex ind (e :: rest)).head? =
        some ⟨nameOf e, ind ++ (if rest.isEmpty then "└── ".data else "├── ".data),
          isDirB e⟩) ∧
      (∀ (ex : List Str) (ind : Str) (l : List FS) (e' : FS),
        l.getLast? = some e' → should_exclude_directory (nameOf e') ex = true →
        ∀ t ∈ treeList ex ind l, t.pre ≠ ind ++ "└── ".data) := by
  refine ⟨treeList_head, ?_⟩
  intro ex ind l e' hlast hexc t ht hpre
  obtain ⟨s, hs, _, himp⟩ := treeList_pre_shape ex ind l t ht
  rw [hs] at hpre
  obtain ⟨e'', hg, hne⟩ := himp (List.append_cancel_left hpre)
  rw [hlast] at hg
  injection hg with hg
  rw [hg] at hexc
  rw [hexc] at hne
  cases hne

/-- Witness for `c4_amended`: `alpha` followed by the excluded
`node_modules` gets connector `├── `, and no rendered entry of that
level carries `└── `. -/
theorem c4_amended_witness :
    should_exclude_directory "alpha".data [] = false ∧
      (treeList [] [] [FS.dir "alpha".data [], FS.dir "node_modules".data []]).head? =
        some ⟨"alpha".data, "├── ".data, true⟩ ∧
      (⟨"alpha".data, "├── ".data, true⟩ : TreeEntry).pre ≠ ([] : Str) ++ "└── ".data := by
  have hal : should_exclude_directory "alpha".data [] = false := by decide
  refine ⟨hal, ?_, ?_⟩
  · have h := c4_amended.1 [] [] (FS.dir "alpha".data []) [FS.dir "node_modules".data []]
      (by simpa [nameOf] using hal)
    simpa [nameOf, isDirB] using h
  · have hs0 : sortChildren [] = ([] : List FS) := rfl
    have hteval : treeList [] [] [FS.dir "alpha".data [], FS.dir "node_modules".data []] =
        [⟨"alpha".data, "├── ".data, true⟩] := by
      simp only [treeList, nameOf, hs0]
      decide
    refine c4_amended.2 [] [] [FS.dir "alpha".data [], FS.dir "node_modules".data []]
      (FS.dir "node_modules".data []) rfl (by decide) _ ?_
    rw [hteval]
    simp
